import Mathlib

/-!
Verification of the item-catalog service: the item persistence layer
(file-backed and SQLite-backed variants of `ItemRepository`) and the
content-addressable image store (`storeImage`, `buildImagePath`,
`GetImage`, `AddItem`).

The Go sources are embedded shallowly:
* path strings are manipulated at the character level, mirroring Go's
  `path/filepath` (`Clean`, `Join`, `Rel` for Unix separators) and
  `strings` (`HasPrefix`, `HasSuffix`);
* the filesystem is a list of (path, bytes) pairs; `os.Stat` existence
  checks become list membership; I/O faults that the claims do not
  mention are not modelled (writes succeed);
* the SQLite database is a pair of tables (`categories`, `items`);
  the SQL statements appearing in the source are given their SQLite
  semantics, including the default ASCII-case-insensitive `LIKE` and
  the rejection of statements naming columns of tables absent from
  the `FROM`/`JOIN` clauses;
* fallible database calls inside `Insert` are modelled by an injected
  fault selector, so that abort behaviour can be stated.
-/

/-! ## Character-level path utilities (Go `path/filepath`, Unix rules) -/

/-- Split a character list on `'/'`. `splitSlash [] = [[]]`, and each
occurrence of `'/'` starts a new (possibly empty) group. -/
def splitSlash : List Char → List (List Char)
  | [] => [[]]
  | c :: t =>
    if c = '/' then [] :: splitSlash t
    else
      match splitSlash t with
      | [] => [[c]]
      | g :: gs => (c :: g) :: gs

/-- Path segments: the groups between slashes, dropping empty groups and
single-dot groups (as Go's `Clean` does while scanning). -/
def segsOf (s : List Char) : List (List Char) :=
  (splitSlash s).filter (fun g => !(g.isEmpty) && !(g == ['.']))

/-- One step of Go `filepath.Clean`'s lexical `..` resolution: a `..`
segment pops the previous segment unless there is none (kept for a
relative path, dropped at the root of an absolute path) or the previous
segment is itself `..`. -/
def stepSeg (rooted : Bool) (acc : List (List Char)) (g : List Char) : List (List Char) :=
  if g = ['.', '.'] then
    match acc.getLast? with
    | none => if rooted then [] else [['.', '.']]
    | some l => if l = ['.', '.'] then acc ++ [g] else acc.dropLast
  else acc ++ [g]

/-- Resolve `..` segments left to right, as Go `filepath.Clean` does. -/
def resolveSegs (rooted : Bool) (l : List (List Char)) : List (List Char) :=
  l.foldl (stepSeg rooted) []

/-- Render segments back to a path, `'/'`-separated. -/
def renderSegs : List (List Char) → List Char
  | [] => []
  | [g] => g
  | g :: gs => g ++ '/' :: renderSegs gs

/-- Go `filepath.Clean` on Unix: empty path becomes `.`, slashes are
deduplicated, `.` segments dropped, `..` segments resolved lexically,
and an emptied relative path becomes `.`. -/
def cleanL (s : List Char) : List Char :=
  if s = [] then ['.']
  else if s.head? = some '/' then
    '/' :: renderSegs (resolveSegs true (segsOf s))
  else
    let segs := resolveSegs false (segsOf s)
    if segs = [] then ['.'] else renderSegs segs

/-- Go `filepath.Join` on two elements: empty elements are skipped and
the slash-joined remainder is cleaned. -/
def joinL (a b : List Char) : List Char :=
  if a = [] then (if b = [] then [] else cleanL b)
  else cleanL (a ++ '/' :: b)

/-- Go `strings.HasPrefix` at the character level (first argument is the
would-be leading part). -/
def hasPre : List Char → List Char → Bool
  | [], _ => true
  | _ :: _, [] => false
  | a :: x, b :: y => a == b && hasPre x y

/-- Go `strings.HasSuffix` at the character level (first argument is the
would-be trailing part). -/
def hasSuf (suf s : List Char) : Bool :=
  hasPre suf.reverse s.reverse

/-- Drop the longest shared leading run of two segment lists, returning
both remainders (the element-matching loop of Go `filepath.Rel`). -/
def dropShared : List (List Char) → List (List Char) → List (List Char) × List (List Char)
  | x :: xs, y :: ys => if x = y then dropShared xs ys else (x :: xs, y :: ys)
  | xs, ys => (xs, ys)

/-- Go `filepath.Rel` on Unix: clean both paths, answer `.` when they
are equal, refuse to relate an absolute path to a relative one, refuse
when the base keeps a `..` segment past the shared part, and otherwise
climb out of the remaining base segments and descend into the remaining
target segments. -/
def relL (basepath targpath : List Char) : Option (List Char) :=
  let base := cleanL basepath
  let targ := cleanL targpath
  if targ = base then some ['.']
  else if (base.head? == some '/') != (targ.head? == some '/') then none
  else
    let bsegs := if base = ['.'] then [] else segsOf base
    let tsegs := if targ = ['.'] then [['.']] else segsOf targ
    let rem := dropShared bsegs tsegs
    if rem.1.head? = some ['.', '.'] then none
    else some (renderSegs (rem.1.map (fun _ => ['.', '.']) ++ rem.2))

/-- String wrapper for `cleanL` (Go `filepath.Clean`). -/
def goClean (s : String) : String := ⟨cleanL s.data⟩

/-- String wrapper for `joinL` (Go `filepath.Join`). -/
def goJoin (a b : String) : String := ⟨joinL a.data b.data⟩

/-- String wrapper for `relL` (Go `filepath.Rel`); `none` is the error
return. -/
def goRel (base targ : String) : Option String :=
  (relL base.data targ.data).map (fun l => ⟨l⟩)

/-- Go `strings.HasPrefix` on strings. -/
def strStartsWith (s pre : String) : Bool := hasPre pre.data s.data

/-- Go `strings.HasSuffix` on strings. -/
def strEndsWith (s suf : String) : Bool := hasSuf suf.data s.data

/-! ## Data model (Go `Item` struct, shared by both repository variants) -/

/-- The Go `Item` struct: `ID int`, `Name`, `Category`, `ImageName`
(`Category` carries the category name at the API boundary). -/
structure Item where
  id : Int
  name : String
  category : String
  imageName : String
deriving DecidableEq, Repr

/-- Repository errors: `errItemNotFound` versus any other (storage)
error surfaced by the Go code via `fmt.Errorf`. -/
inductive RepoErr : Type
  | itemNotFound
  | storageFailure
deriving DecidableEq, Repr

/-! ## Content-addressable image store (`storeImage`, `buildImagePath`,
`GetImage` from the server file) -/

/-- Errors of `buildImagePath`: the traversal rejection
(`invalid image path: ...`), the suffix rejection
(`image path does not end with .jpg or .jpeg: ...`), and
`errImageNotFound`. -/
inductive ImgErr : Type
  | invalidPath
  | invalidSuffix
  | imageNotFound
deriving DecidableEq, Repr

/-- The image directory contents: stored blobs as (path, bytes) pairs.
`os.Stat` existence checks become membership of the path. -/
def statExists (files : List (String × List Nat)) (p : String) : Bool :=
  (files.map Prod.fst).contains p

/-- Go `buildImagePath`: join the cleaned requested name onto the image
directory, reject when `filepath.Rel` fails or yields a `..`-prefixed
relative path, reject a path ending in neither `.jpg` nor `.jpeg`, and
otherwise report the path together with `errImageNotFound` when no file
exists there. Mirrors the Go pair return: rejections return `""` with
the error, the not-found case returns the path with the error. -/
def buildImagePath (imgDirPath : String) (files : List (String × List Nat))
    (imageFileName : String) : String × Option ImgErr :=
  let imgPath := goJoin imgDirPath (goClean imageFileName)
  match goRel imgDirPath imgPath with
  | none => ("", some ImgErr.invalidPath)
  | some rel =>
    if strStartsWith rel ".." then ("", some ImgErr.invalidPath)
    else if !strEndsWith imgPath ".jpg" && !strEndsWith imgPath ".jpeg" then
      ("", some ImgErr.invalidSuffix)
    else if statExists files imgPath then (imgPath, none)
    else (imgPath, some ImgErr.imageNotFound)

/-- Go `storeImage`, parametrised by the digest-to-lowercase-hex
function `hashHex` (the source's `hex.EncodeToString(sha256.Sum256 …)`,
a deterministic function of the byte payload; the cryptographic library
is outside this repository). The source computes
`fileName = hashStr + ".jpg"` and `filePath = filepath.Join(dir,
fileName)`; when a blob already exists at `filePath` it returns
`filePath` without writing, otherwise it writes the blob and returns
`fileName`. Returns the returned string and the updated directory. -/
def storeImage (hashHex : List Nat → String) (imgDirPath : String)
    (files : List (String × List Nat)) (image : List Nat) :
    String × List (String × List Nat) :=
  let hashStr := hashHex image
  let fileName := hashStr ++ ".jpg"
  let filePath := goJoin imgDirPath fileName
  if statExists files filePath then
    (filePath, files)
  else
    (fileName, files ++ [(filePath, image)])

/-- Outcome of the `GetImage` handler: an HTTP 400 client error, or
`http.ServeFile` on a path. -/
inductive GetImageResult : Type
  | badRequest
  | serve (path : String)
deriving DecidableEq, Repr

/-- Go `GetImage`: empty file names are a client error
(`parseGetImageRequest`); a `buildImagePath` error other than
`errImageNotFound` is a client error; `errImageNotFound` is replaced by
serving `filepath.Join(imgDirPath, "default.jpg")`; otherwise the
resolved path is served. -/
def getImageHandler (imgDirPath : String) (files : List (String × List Nat))
    (filename : String) : GetImageResult :=
  if filename = "" then GetImageResult.badRequest
  else
    match buildImagePath imgDirPath files filename with
    | (p, none) => GetImageResult.serve p
    | (_, some ImgErr.imageNotFound) =>
        GetImageResult.serve (goJoin imgDirPath "default.jpg")
    | (_, some ImgErr.invalidPath) => GetImageResult.badRequest
    | (_, some ImgErr.invalidSuffix) => GetImageResult.badRequest

/-! ## File-backed `ItemRepository` (`infra.go`): the JSON file holds an
ordered list of items -/

/-- Go file-backed `Insert`: decode the stored list, append the new
item, re-encode. -/
def fileInsert (items : List Item) (it : Item) : List Item :=
  items ++ [it]

/-- Go file-backed `List`: the decoded list (a missing file reads as the
empty list). -/
def fileList (items : List Item) : List Item :=
  items

/-- Go file-backed `Select`: `id <= 0` is `errItemNotFound`,
`len(items) < id` is `errItemNotFound`, otherwise `items[id-1]`. -/
def fileSelect (items : List Item) (id : Int) : Except RepoErr Item :=
  if _h1 : id ≤ 0 then Except.error RepoErr.itemNotFound
  else if _h2 : (items.length : Int) < id then Except.error RepoErr.itemNotFound
  else Except.ok (items.get ⟨(id - 1).toNat, by omega⟩)

/-! ## SQLite-backed `ItemRepository` (the database variant) -/

/-- Row of the `categories` table. -/
structure DbCategory where
  id : Nat
  name : String
deriving DecidableEq, Repr

/-- Row of the `items` table. -/
structure DbItem where
  id : Nat
  name : String
  category_id : Nat
  image_name : String
deriving DecidableEq, Repr

/-- The SQLite database: both tables plus the next `rowid` each table
would assign (`LastInsertId`). -/
structure DB where
  categories : List DbCategory
  items : List DbItem
  nextCategoryId : Nat
  nextItemId : Nat
deriving DecidableEq, Repr

/-- `SELECT id FROM categories WHERE name = ?` — SQL `=` on text is
exact (case-sensitive) comparison. -/
def lookupCategory (db : DB) (name : String) : Option Nat :=
  (db.categories.find? (fun c => c.name == name)).map DbCategory.id

/-- Fault selector for the fallible database calls inside the
SQLite-backed `Insert`: exactly one call site may be made to fail
(`Fault.clean` injects no failure). A selected fault only fires if its
call site is reached. -/
inductive Fault : Type
  | clean
  | categoryQueryFail
  | categoryInsertFail
  | lastInsertIdFail
  | itemInsertFail
deriving DecidableEq, Repr

/-- SQLite-backed `Insert` with fault injection. Control flow of the Go
source: query the category id by name; on `sql.ErrNoRows` insert the
category and read `LastInsertId`; any database failure returns the
wrapped error at once; finally insert the item row referencing the
resolved category id. The result is the Go error (`none` on success)
paired with the database as left by the executed statements. -/
def relInsertF (db : DB) (it : Item) (f : Fault) : Option String × DB :=
  if f = Fault.categoryQueryFail then (some "failed to query category", db)
  else
    match lookupCategory db it.category with
    | some categoryID =>
        if f = Fault.itemInsertFail then (some "failed to insert item", db)
        else (none, { db with
          items := db.items ++ [⟨db.nextItemId, it.name, categoryID, it.imageName⟩],
          nextItemId := db.nextItemId + 1 })
    | none =>
        if f = Fault.categoryInsertFail then (some "failed to insert category", db)
        else
          let categoryID := db.nextCategoryId
          let db1 := { db with
            categories := db.categories ++ [⟨categoryID, it.category⟩],
            nextCategoryId := categoryID + 1 }
          if f = Fault.lastInsertIdFail then (some "failed to get last insert ID", db1)
          else if f = Fault.itemInsertFail then (some "failed to insert item", db1)
          else (none, { db1 with
            items := db1.items ++ [⟨db1.nextItemId, it.name, categoryID, it.imageName⟩],
            nextItemId := db1.nextItemId + 1 })

/-- SQLite-backed `Insert` on the fault-free path. -/
def relInsert (db : DB) (it : Item) : DB :=
  (relInsertF db it Fault.clean).2

/-- SQLite-backed `List`:
`SELECT items.id, items.name, categories.name, items.image_name FROM
items JOIN categories ON items.category_id = categories.id` — the inner
join of the two tables in nested-loop order. -/
def relList (db : DB) : List Item :=
  db.items.flatMap (fun it =>
    (db.categories.filter (fun c => c.id == it.category_id)).map
      (fun c => ⟨(it.id : Int), it.name, c.name, it.image_name⟩))

/-- Tables named in the `FROM`/`JOIN` clauses of the `Select` query of
the SQLite-backed variant (`... FROM items WHERE id = ?` — no join). -/
def selectFromTables : List String := ["items"]

/-- Table qualifiers of the columns selected by that query
(`items.id, items.name, categories.name, items.image_name`). -/
def selectColTables : List String := ["items", "items", "categories", "items"]

/-- SQLite prepares a statement only if every selected column's table
appears in the `FROM`/`JOIN` clauses; otherwise the query fails with
`no such column`. -/
def selectStatementOk : Bool :=
  selectColTables.all (fun t => selectFromTables.contains t)

/-- SQLite-backed `Select`: `id <= 0` is `errItemNotFound`; then the
query `SELECT items.id, items.name, categories.name AS category_id,
items.image_name FROM items WHERE id = ?` runs. The statement names
`categories.name` although `categories` is absent from its `FROM`
clause, so SQLite refuses it and `row.Scan` yields the prepare error,
wrapped as a storage failure; were the statement accepted, the first
matching joined row would be returned, with `sql.ErrNoRows` mapped to
`errItemNotFound`. -/
def relSelect (db : DB) (id : Int) : Except RepoErr Item :=
  if id ≤ 0 then Except.error RepoErr.itemNotFound
  else if selectStatementOk then
    match (relList db).find? (fun r => r.id == id) with
    | some r => Except.ok r
    | none => Except.error RepoErr.itemNotFound
  else Except.error RepoErr.storageFailure

/-! ## SQLite `LIKE` (default semantics: `%`/`_` wildcards,
ASCII-case-insensitive comparison) -/

/-- SQLite's default character folding for `LIKE`: ASCII letters are
compared case-insensitively, all other characters exactly. -/
def asciiLower (c : Char) : Char :=
  if 'A' ≤ c ∧ c ≤ 'Z' then Char.ofNat (c.toNat + 32) else c

/-- All suffixes of a list, longest first (ending with `[]`). -/
def suffixesOf : List Char → List (List Char)
  | [] => [[]]
  | c :: t => (c :: t) :: suffixesOf t

/-- SQLite `LIKE` pattern matching (default `PRAGMA case_sensitive_like
= OFF`): `%` matches any character sequence, `_` matches exactly one
character, any other pattern character matches ASCII-case-insensitively. -/
def likeMatch : List Char → List Char → Bool
  | [], s => s.isEmpty
  | a :: ps, s =>
    if a = '%' then (suffixesOf s).any (fun t => likeMatch ps t)
    else
      match s with
      | [] => false
      | c :: cs =>
        if a = '_' then likeMatch ps cs
        else (asciiLower a == asciiLower c) && likeMatch ps cs

/-- `LIKE` on strings. -/
def likeStr (pat s : String) : Bool := likeMatch pat.data s.data

/-- SQLite-backed `Search`:
`SELECT … FROM items JOIN categories ON items.category_id =
categories.id WHERE items.name LIKE ? OR categories.name LIKE ?` with
the pattern `"%" + keyword + "%"` bound to both placeholders. -/
def relSearch (db : DB) (keyword : String) : List Item :=
  let searchTerm := "%" ++ keyword ++ "%"
  (relList db).filter (fun r => likeStr searchTerm r.name || likeStr searchTerm r.category)

/-! ## The `AddItem` handler (server file), composed with the
file-backed repository that the server's `Run` constructs -/

/-- State touched by `AddItem`: the image directory and the file-backed
item list. -/
structure AppState where
  imgFiles : List (String × List Nat)
  repo : List Item
deriving DecidableEq, Repr

/-- Outcome of the `AddItem` handler. -/
inductive AddItemResult : Type
  | badRequest (msg : String)
  | internalError (msg : String)
  | ok (msg : String)
deriving DecidableEq, Repr

/-- Go `AddItem`: validate the parsed form (`parseAddItemRequest`),
store the image first, then insert the item referencing the returned
name; a repository failure (injected here as `insertFault`) answers 500
after the image write already happened. -/
def addItem (hashHex : List Nat → String) (imgDirPath : String) (st : AppState)
    (name category : String) (image : List Nat) (insertFault : Bool) :
    AddItemResult × AppState :=
  if name = "" then (AddItemResult.badRequest "name is required", st)
  else if category = "" then (AddItemResult.badRequest "category is required", st)
  else if image.isEmpty then (AddItemResult.badRequest "Uploaded image is empty", st)
  else
    let r := storeImage hashHex imgDirPath st.imgFiles image
    let it : Item := ⟨0, name, category, r.1⟩
    if insertFault then
      (AddItemResult.internalError "failed to store item", { st with imgFiles := r.2 })
    else
      (AddItemResult.ok ("item received: " ++ name),
       { imgFiles := r.2, repo := fileInsert st.repo it })

/-! ## Claim-side predicates (formalising the specification's words, for
comparison with the source behaviour) -/

/-- Claim wording for C1: the requested name contains a
parent-directory traversal segment, i.e. some `/`-separated component
is exactly `..`. -/
def hasDotDotSeg (name : String) : Bool :=
  (splitSlash name.data).contains ['.', '.']

/-- Case-sensitive substring test (claim wording for C4). -/
def csContains : List Char → List Char → Bool
  | k, [] => k.isEmpty
  | k, c :: t => k.isPrefixOf (c :: t) || csContains k t

/-- Claim wording for C4: keep the items whose name or category name
contains the keyword as a case-sensitive substring. -/
def searchSpecCS (db : DB) (keyword : String) : List Item :=
  (relList db).filter (fun r =>
    csContains keyword.data r.name.data || csContains keyword.data r.category.data)

/-- ASCII-case-insensitive character-prefix test. -/
def ciPre : List Char → List Char → Bool
  | [], _ => true
  | _ :: _, [] => false
  | a :: x, b :: y => (asciiLower a == asciiLower b) && ciPre x y

/-- ASCII-case-insensitive substring test. -/
def ciContains (k : List Char) : List Char → Bool
  | [] => ciPre k []
  | c :: t => ciPre k (c :: t) || ciContains k t

/-- A keyword without the SQL `LIKE` wildcard characters. -/
def noWildcards (k : String) : Bool :=
  k.data.all (fun c => !(c == '%') && !(c == '_'))

/-- Number of `categories` rows carrying a given name. -/
def countCat (db : DB) (name : String) : Nat :=
  (db.categories.filter (fun c => c.name == name)).length

/-- Every item row references an existing category row. -/
def catRefsOk (db : DB) : Bool :=
  db.items.all (fun it => db.categories.any (fun c => c.id == it.category_id))

/-- Well-formedness of a path segment produced by `segsOf`: non-empty,
not the single dot, and slash-free. -/
def segWF (g : List Char) : Prop :=
  g ≠ [] ∧ g ≠ ['.'] ∧ '/' ∉ g

/-- Shape of a `..`-resolved segment list: a leading run of `..`
segments followed by a `..`-free remainder. -/
def reducedSegs (l : List (List Char)) : Prop :=
  ∃ k m, l = List.replicate k ['.', '.'] ++ m ∧ ['.', '.'] ∉ m

/-! ## Theorems -/

/-- C5: the file-backed `Select` fails with `ItemNotFound` for
`id = 0`, for negative `id`, and for `id` exceeding the number of
stored items; for every valid id it returns the id-th (1-based) stored
item. -/
theorem c5_file_select_bounds (items : List Item) (id : Int) :
    (id ≤ 0 → fileSelect items id = Except.error RepoErr.itemNotFound)
  ∧ ((items.length : Int) < id → fileSelect items id = Except.error RepoErr.itemNotFound)
  ∧ (0 < id → id ≤ (items.length : Int) →
      (fileSelect items id).toOption = items.get? (id - 1).toNat) := by
  refine ⟨?_, ?_, ?_⟩
  · intro h
    simp [fileSelect, h]
  · intro h
    by_cases h0 : id ≤ 0
    · simp [fileSelect, h0]
    · simp [fileSelect, h0, h]
  · intro h1 h2
    have h0 : ¬ id ≤ 0 := by omega
    have hl : ¬ (items.length : Int) < id := by omega
    simp only [fileSelect, dif_neg h0, dif_neg hl, Except.toOption]
    exact (List.get?_eq_get (by omega)).symm

/-- C5 witness: a concrete instance of `c5_file_select_bounds`. -/
theorem c5_file_select_bounds_witness :
    fileSelect [⟨1, "a", "c", "i"⟩] 0 = Except.error RepoErr.itemNotFound
  ∧ (fileSelect [⟨1, "a", "c", "i"⟩] 1).toOption = some ⟨1, "a", "c", "i"⟩ := by
  constructor
  · exact (c5_file_select_bounds [⟨1, "a", "c", "i"⟩] 0).1 (by decide)
  · rw [(c5_file_select_bounds [⟨1, "a", "c", "i"⟩] 1).2.2 (by decide) (by decide)]
    decide

/-- C9: inserting an item into the file-backed repository and listing
yields a record whose name, category, and image fields equal the
inserted values. -/
theorem c9_insert_list_roundtrip (items : List Item) (it : Item) :
    (fileList (fileInsert items it)).getLast? = some it
  ∧ ∃ r ∈ fileList (fileInsert items it),
      r.name = it.name ∧ r.category = it.category ∧ r.imageName = it.imageName := by
  constructor
  · simp [fileList, fileInsert]
  · exact ⟨it, by simp [fileList, fileInsert], rfl, rfl, rfl⟩

/-- C6: when `buildImagePath` signals `errImageNotFound`, `GetImage`
serves the fixed default image path under the image directory; every
other `buildImagePath` error is surfaced as a client error; a resolved
path is served as is. -/
theorem c6_default_image_fallback (imgDirPath : String)
    (files : List (String × List Nat)) (filename : String) (hne : filename ≠ "") :
    (∀ p, buildImagePath imgDirPath files filename = (p, some ImgErr.imageNotFound) →
        getImageHandler imgDirPath files filename =
          GetImageResult.serve (goJoin imgDirPath "default.jpg"))
  ∧ (∀ p, buildImagePath imgDirPath files filename = (p, some ImgErr.invalidPath) →
        getImageHandler imgDirPath files filename = GetImageResult.badRequest)
  ∧ (∀ p, buildImagePath imgDirPath files filename = (p, some ImgErr.invalidSuffix) →
        getImageHandler imgDirPath files filename = GetImageResult.badRequest)
  ∧ (∀ p, buildImagePath imgDirPath files filename = (p, none) →
        getImageHandler imgDirPath files filename = GetImageResult.serve p) := by
  refine ⟨?_, ?_, ?_, ?_⟩ <;> intro p h <;> simp [getImageHandler, hne, h]

/-- C6 witness: a request for an absent image is answered with the
default image path. -/
theorem c6_default_image_fallback_witness :
    getImageHandler "images" [] "missing.jpg" =
      GetImageResult.serve (goJoin "images" "default.jpg") :=
  (c6_default_image_fallback "images" [] "missing.jpg" (by decide)).1
    "images/missing.jpg" (by decide)

/-- C2 (bug evidence): with the image directory `"images"` and any
digest function, storing the same bytes twice returns `"<hex>.jpg"`
the first time but `"images/<hex>.jpg"` (the joined path) the second
time — the two return values differ, although the second call indeed
leaves the directory unchanged (the dedup half of the claim). -/
theorem c2_store_image_name_discrepancy :
    (storeImage (fun _ => "aa") "images" [] [1, 2, 3]).1 = "aa.jpg"
  ∧ (storeImage (fun _ => "aa") "images"
      (storeImage (fun _ => "aa") "images" [] [1, 2, 3]).2 [1, 2, 3]).1 = "images/aa.jpg"
  ∧ "aa.jpg" ≠ "images/aa.jpg"
  ∧ (storeImage (fun _ => "aa") "images"
      (storeImage (fun _ => "aa") "images" [] [1, 2, 3]).2 [1, 2, 3]).2 =
      (storeImage (fun _ => "aa") "images" [] [1, 2, 3]).2 := by
  refine ⟨rfl, rfl, by decide, rfl⟩

/-- C3 (bug evidence): the SQLite-backed `Select` query names
`categories.name` although its `FROM` clause lists only `items`, so the
statement does not prepare and a populated store with a matching row
still answers a storage failure instead of the joined item. -/
theorem c3_select_storage_failure :
    selectStatementOk = false
  ∧ relSelect ⟨[⟨1, "fashion"⟩], [⟨1, "shoes", 1, "img.jpg"⟩], 2, 2⟩ 1 =
      Except.error RepoErr.storageFailure
  ∧ relList ⟨[⟨1, "fashion"⟩], [⟨1, "shoes", 1, "img.jpg"⟩], 2, 2⟩ =
      [⟨1, "shoes", "fashion", "img.jpg"⟩] := by
  refine ⟨by decide, rfl, by decide⟩

/-- The category lookup comes back empty exactly when no category row
carries the name. -/
theorem lookup_none_iff_countCat_zero (db : DB) (c : String) :
    lookupCategory db c = none ↔ countCat db c = 0 := by
  simp [lookupCategory, countCat, List.find?_eq_none, List.length_eq_zero,
    List.filter_eq_nil_iff]

/-- A successful category lookup names an existing row id. -/
theorem lookup_some_mem (db : DB) (nm : String) (cid : Nat)
    (h : lookupCategory db nm = some cid) :
    db.categories.any (fun c => c.id == cid) = true := by
  unfold lookupCategory at h
  cases hf : db.categories.find? (fun c => c.name == nm) with
  | none => rw [hf] at h; cases h
  | some c =>
    rw [hf] at h
    simp only [Option.map_some', Option.some.injEq] at h
    have hm := List.mem_of_find?_eq_some hf
    simp only [List.any_eq_true, beq_iff_eq]
    exact ⟨c, hm, h⟩

/-- C7: an insert creates a category row for its category name only if
none existed, so sequential inserts never duplicate a category name;
in particular, inserting two items with category `"toys"` into an empty
store leaves exactly one `"toys"` row. -/
theorem c7_no_duplicate_categories (db : DB) (it : Item) (name : String) :
    countCat (relInsert db it) name =
      (if it.category = name ∧ countCat db name = 0 then 1 else countCat db name)
  ∧ countCat (relInsert (relInsert ⟨[], [], 1, 1⟩ ⟨0, "i1", "toys", "x"⟩)
      ⟨0, "i2", "toys", "y"⟩) "toys" = 1 := by
  constructor
  · cases hl : lookupCategory db it.category with
    | some cid =>
      have hcat : (relInsert db it).categories = db.categories := by
        simp [relInsert, relInsertF, hl]
      have h1 : countCat (relInsert db it) name = countCat db name := by
        unfold countCat
        rw [hcat]
      have hne : ¬ (it.category = name ∧ countCat db name = 0) := by
        rintro ⟨h1', h2'⟩
        have := (lookup_none_iff_countCat_zero db it.category).2 (by rw [h1']; exact h2')
        rw [hl] at this
        exact Option.noConfusion this
      rw [h1, if_neg hne]
    | none =>
      have hcat : (relInsert db it).categories =
          db.categories ++ [⟨db.nextCategoryId, it.category⟩] := by
        simp [relInsert, relInsertF, hl]
      have hz : countCat db it.category = 0 :=
        (lookup_none_iff_countCat_zero db it.category).1 hl
      unfold countCat at hz ⊢
      rw [hcat, List.filter_append, List.length_append]
      by_cases hn : it.category = name
      · subst hn
        simp [hz, List.filter_cons]
      · have : (List.filter (fun c => c.name == name)
            [(⟨db.nextCategoryId, it.category⟩ : DbCategory)]) = [] := by
          simp [List.filter_cons, hn]
        rw [this]
        simp [hn]
  · decide

/-- C8 witness helper is not needed; this helper shows that extending
the category table preserves existing references. -/
theorem any_id_append (l : List DbCategory) (c : DbCategory) (n : Nat)
    (h : l.any (fun x => x.id == n) = true) :
    (l ++ [c]).any (fun x => x.id == n) = true := by
  simp [List.any_append, h]

/-- C8: under any single injected database failure, whenever the
category-resolution phase of the SQLite-backed `Insert` reports an
error (any error other than the item-insert failure), the item table is
left untouched; and every outcome preserves the invariant that each
item row references an existing category row. -/
theorem c8_category_failure_aborts (db : DB) (it : Item) (f : Fault)
    (h : catRefsOk db = true) :
    catRefsOk (relInsertF db it f).2 = true
  ∧ (∀ msg, (relInsertF db it f).1 = some msg → msg ≠ "failed to insert item" →
      (relInsertF db it f).2.items = db.items) := by
  have hcons : ∀ x ∈ db.items,
      db.categories.any (fun c => c.id == x.category_id) = true := by
    simpa only [catRefsOk, List.all_eq_true] using h
  have hnew : ∀ (cid a : Nat) (nm im : String) (cats2 : List DbCategory) (n1 n2 : Nat),
      cats2.any (fun c => c.id == cid) = true →
      (∀ x ∈ db.items, cats2.any (fun c => c.id == x.category_id) = true) →
      catRefsOk ⟨cats2, db.items ++ [⟨a, nm, cid, im⟩], n1, n2⟩ = true := by
    intro cid a nm im cats2 n1 n2 hc hold
    simp only [catRefsOk, List.all_eq_true]
    intro x hx
    rcases List.mem_append.mp hx with hx | hx
    · exact hold x hx
    · have hx' := List.mem_singleton.mp hx
      subst hx'
      exact hc
  have hmono : ∀ x ∈ db.items, ∀ (c : DbCategory),
      (db.categories ++ [c]).any (fun cc => cc.id == x.category_id) = true :=
    fun x hx c => any_id_append _ _ _ (hcons x hx)
  have hkeep : ∀ (c : DbCategory) (n1 n2 : Nat),
      catRefsOk ⟨db.categories ++ [c], db.items, n1, n2⟩ = true := by
    intro c n1 n2
    simp only [catRefsOk, List.all_eq_true]
    intro x hx
    exact hmono x hx c
  cases f with
  | clean =>
    cases hl : lookupCategory db it.category with
    | some cid =>
      have he : relInsertF db it Fault.clean =
          (none, ⟨db.categories, db.items ++ [⟨db.nextItemId, it.name, cid, it.imageName⟩],
            db.nextCategoryId, db.nextItemId + 1⟩) := by
        simp [relInsertF, hl]
      rw [he]
      exact ⟨hnew cid _ _ _ _ _ _ (lookup_some_mem db it.category cid hl) hcons,
        fun msg hmsg => Option.noConfusion hmsg⟩
    | none =>
      have he : relInsertF db it Fault.clean =
          (none, ⟨db.categories ++ [⟨db.nextCategoryId, it.category⟩],
            db.items ++ [⟨db.nextItemId, it.name, db.nextCategoryId, it.imageName⟩],
            db.nextCategoryId + 1, db.nextItemId + 1⟩) := by
        simp [relInsertF, hl]
      rw [he]
      refine ⟨hnew db.nextCategoryId _ _ _ _ _ _ ?_ (fun x hx => hmono x hx _),
        fun msg hmsg => Option.noConfusion hmsg⟩
      simp [List.any_append]
  | categoryQueryFail =>
    have he : relInsertF db it Fault.categoryQueryFail =
        (some "failed to query category", db) := by
      simp [relInsertF]
    rw [he]
    exact ⟨h, fun msg hmsg hne => rfl⟩
  | categoryInsertFail =>
    cases hl : lookupCategory db it.category with
    | some cid =>
      have he : relInsertF db it Fault.categoryInsertFail =
          (none, ⟨db.categories, db.items ++ [⟨db.nextItemId, it.name, cid, it.imageName⟩],
            db.nextCategoryId, db.nextItemId + 1⟩) := by
        simp [relInsertF, hl]
      rw [he]
      exact ⟨hnew cid _ _ _ _ _ _ (lookup_some_mem db it.category cid hl) hcons,
        fun msg hmsg => Option.noConfusion hmsg⟩
    | none =>
      have he : relInsertF db it Fault.categoryInsertFail =
          (some "failed to insert category", db) := by
        simp [relInsertF, hl]
      rw [he]
      exact ⟨h, fun msg hmsg hne => rfl⟩
  | lastInsertIdFail =>
    cases hl : lookupCategory db it.category with
    | some cid =>
      have he : relInsertF db it Fault.lastInsertIdFail =
          (none, ⟨db.categories, db.items ++ [⟨db.nextItemId, it.name, cid, it.imageName⟩],
            db.nextCategoryId, db.nextItemId + 1⟩) := by
        simp [relInsertF, hl]
      rw [he]
      exact ⟨hnew cid _ _ _ _ _ _ (lookup_some_mem db it.category cid hl) hcons,
        fun msg hmsg => Option.noConfusion hmsg⟩
    | none =>
      have he : relInsertF db it Fault.lastInsertIdFail =
          (some "failed to get last insert ID",
           ⟨db.categories ++ [⟨db.nextCategoryId, it.category⟩], db.items,
            db.nextCategoryId + 1, db.nextItemId⟩) := by
        simp [relInsertF, hl]
      rw [he]
      exact ⟨hkeep _ _ _, fun msg hmsg hne => rfl⟩
  | itemInsertFail =>
    cases hl : lookupCategory db it.category with
    | some cid =>
      have he : relInsertF db it Fault.itemInsertFail =
          (some "failed to insert item", db) := by
        simp [relInsertF, hl]
      rw [he]
      exact ⟨h, fun msg hmsg hne => rfl⟩
    | none =>
      have he : relInsertF db it Fault.itemInsertFail =
          (some "failed to insert item",
           ⟨db.categories ++ [⟨db.nextCategoryId, it.category⟩], db.items,
            db.nextCategoryId + 1, db.nextItemId⟩) := by
        simp [relInsertF, hl]
      rw [he]
      exact ⟨hkeep _ _ _, fun msg hmsg hne => rfl⟩

/-- C8 witness: a concrete instance of `c8_category_failure_aborts`. -/
theorem c8_category_failure_aborts_witness :
    catRefsOk (relInsertF ⟨[], [], 1, 1⟩ ⟨0, "a", "toys", "i"⟩
      Fault.categoryInsertFail).2 = true
  ∧ (relInsertF ⟨[], [], 1, 1⟩ ⟨0, "a", "toys", "i"⟩
      Fault.categoryInsertFail).2.items = ([] : List DbItem) := by
  have h := c8_category_failure_aborts ⟨[], [], 1, 1⟩ ⟨0, "a", "toys", "i"⟩
    Fault.categoryInsertFail (by decide)
  exact ⟨h.1, h.2 "failed to insert category" (by decide) (by decide)⟩

/-- C10: `AddItem` writes the image blob before inserting the item
record; when the insert then fails, the freshly written blob stays in
the image directory while the item list is unchanged — the handler is
not atomic across the two stores. -/
theorem c10_add_item_not_atomic (hashHex : List Nat → String) (imgDirPath : String)
    (st : AppState) (name category : String) (image : List Nat)
    (hn : name ≠ "") (hc : category ≠ "") (hi : image ≠ [])
    (hnew : statExists st.imgFiles (goJoin imgDirPath (hashHex image ++ ".jpg")) = false) :
    addItem hashHex imgDirPath st name category image true =
      (AddItemResult.internalError "failed to store item",
       { imgFiles := st.imgFiles ++ [(goJoin imgDirPath (hashHex image ++ ".jpg"), image)],
         repo := st.repo }) := by
  have hie : image.isEmpty = false := by
    cases image with
    | nil => exact absurd rfl hi
    | cons a t => rfl
  simp [addItem, hn, hc, hie, storeImage, hnew]

/-- C10 witness: a concrete instance of `c10_add_item_not_atomic`. -/
theorem c10_add_item_not_atomic_witness :
    addItem (fun _ => "aa") "images" ⟨[], []⟩ "shoes" "fashion" [1, 2, 3] true =
      (AddItemResult.internalError "failed to store item",
       { imgFiles := [("images/aa.jpg", [1, 2, 3])], repo := [] }) := by
  have h := c10_add_item_not_atomic (fun _ => "aa") "images" ⟨[], []⟩ "shoes" "fashion"
    [1, 2, 3] (by decide) (by decide) (by decide) (by decide)
  exact h.trans (by decide)

/-- The empty list is always among the suffixes of a list. -/
theorem nil_mem_suffixesOf (s : List Char) : [] ∈ suffixesOf s := by
  induction s with
  | nil => simp [suffixesOf]
  | cons c t ih => simp [suffixesOf, ih]

/-- A lone `%` pattern matches every string. -/
theorem likeMatch_pct_nil (s : List Char) : likeMatch ['%'] s = true := by
  rw [show likeMatch ['%'] s = (suffixesOf s).any (fun t => likeMatch [] t) from rfl]
  rw [List.any_eq_true]
  exact ⟨[], nil_mem_suffixesOf s, rfl⟩

/-- For a wildcard-free pattern `p`, the pattern `p%` matches exactly
the strings with `p` as an ASCII-case-insensitive leading part. -/
theorem likeMatch_trailing_pct (p : List Char)
    (hp : p.all (fun c => !(c == '%') && !(c == '_')) = true) (s : List Char) :
    likeMatch (p ++ ['%']) s = ciPre p s := by
  induction p generalizing s with
  | nil => simpa [ciPre] using likeMatch_pct_nil s
  | cons a p' ih =>
    simp only [List.all_cons, Bool.and_eq_true, Bool.not_eq_true', beq_eq_false_iff_ne,
      ne_eq] at hp
    obtain ⟨⟨ha1, ha2⟩, hp'⟩ := hp
    cases s with
    | nil =>
      simp [likeMatch, ciPre, ha1]
    | cons c cs =>
      simp only [List.cons_append, likeMatch, if_neg ha1, if_neg ha2, ciPre,
        List.append_eq]
      rw [ih (by simpa [List.all_eq_true] using hp') cs]

/-- For a wildcard-free keyword `k`, the pattern `%k%` matches exactly
the strings containing `k` as an ASCII-case-insensitive substring. -/
theorem likeMatch_wrapped_pct (k : List Char)
    (hk : k.all (fun c => !(c == '%') && !(c == '_')) = true) (s : List Char) :
    likeMatch ('%' :: (k ++ ['%'])) s = ciContains k s := by
  induction s with
  | nil =>
    rw [show likeMatch ('%' :: (k ++ ['%'])) [] =
      (suffixesOf []).any (fun t => likeMatch (k ++ ['%']) t) from rfl]
    simp only [suffixesOf, List.any_cons, List.any_nil]
    rw [likeMatch_trailing_pct k hk []]
    simp [ciContains]
  | cons c t ih =>
    rw [show likeMatch ('%' :: (k ++ ['%'])) (c :: t) =
      (suffixesOf (c :: t)).any (fun u => likeMatch (k ++ ['%']) u) from rfl]
    rw [show suffixesOf (c :: t) = (c :: t) :: suffixesOf t from rfl]
    rw [List.any_cons]
    rw [show ((suffixesOf t).any fun u => likeMatch (k ++ ['%']) u) =
      likeMatch ('%' :: (k ++ ['%'])) t from rfl]
    rw [ih, likeMatch_trailing_pct k hk (c :: t)]
    rfl

/-- The empty keyword is an ASCII-case-insensitive substring of every
string. -/
theorem ciContains_nil (s : List Char) : ciContains [] s = true := by
  cases s <;> simp [ciContains, ciPre]

/-- C4 counterexample: the SQLite-backed `Search` compares with the
default case-insensitive `LIKE`, so the keyword `"CAR"` matches the
stored name `"Car"` although `"CAR"` is not a case-sensitive substring
of the item's name or category. -/
theorem c4_case_sensitivity_cex :
    relSearch ⟨[⟨1, "toys"⟩], [⟨1, "Car", 1, "x.jpg"⟩], 2, 2⟩ "CAR" =
      [⟨1, "Car", "toys", "x.jpg"⟩]
  ∧ searchSpecCS ⟨[⟨1, "toys"⟩], [⟨1, "Car", 1, "x.jpg"⟩], 2, 2⟩ "CAR" = [] := by
  refine ⟨by decide, by decide⟩

/-- C4 (amended): for a keyword without `LIKE` wildcard characters,
`Search` returns exactly the joined items whose name or category name
contains the keyword as an ASCII-case-insensitive substring, and the
empty keyword returns every stored item. -/
theorem c4_search_characterization (db : DB) (keyword : String)
    (hk : noWildcards keyword = true) :
    relSearch db keyword = (relList db).filter (fun r =>
      ciContains keyword.data r.name.data || ciContains keyword.data r.category.data)
  ∧ relSearch db "" = relList db := by
  have hdat : ∀ (k : String), ("%" ++ k ++ "%").data = '%' :: (k.data ++ ['%']) := by
    intro k
    simp [String.data_append]
  constructor
  · unfold relSearch
    apply List.filter_congr
    intro x _
    unfold likeStr
    rw [hdat keyword, likeMatch_wrapped_pct keyword.data hk x.name.data,
      likeMatch_wrapped_pct keyword.data hk x.category.data]
  · have hone : ∀ (s : String), likeStr "%%" s = true := by
      intro s
      have h1 := likeMatch_wrapped_pct [] (by decide) s.data
      rw [ciContains_nil] at h1
      exact h1
    show (relList db).filter
      (fun r => likeStr "%%" r.name || likeStr "%%" r.category) = relList db
    refine List.filter_eq_self.mpr (fun x hx => ?_)
    rw [hone, hone]
    rfl

/-- C4 witness: a concrete instance of `c4_search_characterization`. -/
theorem c4_search_characterization_witness :
    relSearch ⟨[⟨1, "toys"⟩], [⟨1, "Car", 1, "x.jpg"⟩], 2, 2⟩ "car" =
      (relList ⟨[⟨1, "toys"⟩], [⟨1, "Car", 1, "x.jpg"⟩], 2, 2⟩).filter (fun r =>
        ciContains "car".data r.name.data || ciContains "car".data r.category.data)
  ∧ relSearch ⟨[⟨1, "toys"⟩], [⟨1, "Car", 1, "x.jpg"⟩], 2, 2⟩ "" =
      relList ⟨[⟨1, "toys"⟩], [⟨1, "Car", 1, "x.jpg"⟩], 2, 2⟩ :=
  c4_search_characterization ⟨[⟨1, "toys"⟩], [⟨1, "Car", 1, "x.jpg"⟩], 2, 2⟩ "car" (by decide)

/-- `splitSlash` never returns the empty list of groups. -/
theorem splitSlash_ne_nil (s : List Char) : splitSlash s ≠ [] := by
  cases s with
  | nil => simp [splitSlash]
  | cons c t =>
    by_cases hc : c = '/'
    · simp [splitSlash, hc]
    · simp only [splitSlash, if_neg hc]
      cases splitSlash t <;> simp

/-- Groups produced by `splitSlash` contain no slash. -/
theorem splitSlash_no_slash (s : List Char) : ∀ g ∈ splitSlash s, '/' ∉ g := by
  induction s with
  | nil =>
    intro g hg
    simp only [splitSlash, List.mem_singleton] at hg
    subst hg
    simp
  | cons c t ih =>
    intro g hg
    by_cases hc : c = '/'
    · simp only [splitSlash, if_pos hc] at hg
      rcases List.mem_cons.mp hg with rfl | hg'
      · simp
      · exact ih g hg'
    · simp only [splitSlash, if_neg hc] at hg
      cases hsp : splitSlash t with
      | nil => exact absurd hsp (splitSlash_ne_nil t)
      | cons g0 gs =>
        rw [hsp] at hg
        rcases List.mem_cons.mp hg with rfl | hg'
        · intro hmem
          rcases List.mem_cons.mp hmem with h | h
          · exact hc h.symm
          · exact ih g0 (by rw [hsp]; exact List.mem_cons_self _ _) h
        · exact ih g (by rw [hsp]; exact List.mem_cons_of_mem _ hg')

/-- `splitSlash` distributes over a slash in the middle. -/
theorem splitSlash_append_slash (a b : List Char) :
    splitSlash (a ++ '/' :: b) = splitSlash a ++ splitSlash b := by
  induction a with
  | nil => simp [splitSlash]
  | cons c t ih =>
    by_cases hc : c = '/'
    · simp only [List.cons_append, splitSlash, if_pos hc, List.append_eq, ih]
    · simp only [List.cons_append, splitSlash, if_neg hc, List.append_eq, ih]
      cases hsp : splitSlash t with
      | nil => exact absurd hsp (splitSlash_ne_nil t)
      | cons g gs => simp

/-- `segsOf` distributes over a slash in the middle. -/
theorem segsOf_append_slash (a b : List Char) :
    segsOf (a ++ '/' :: b) = segsOf a ++ segsOf b := by
  unfold segsOf
  rw [splitSlash_append_slash, List.filter_append]

/-- Every segment produced by `segsOf` is well-formed. -/
theorem segsOf_wf (s : List Char) : ∀ g ∈ segsOf s, segWF g := by
  intro g hg
  unfold segsOf at hg
  have hmem := List.mem_of_mem_filter hg
  have hp := List.of_mem_filter hg
  simp only [Bool.and_eq_true, Bool.not_eq_true'] at hp
  refine ⟨?_, ?_, splitSlash_no_slash s g hmem⟩
  · intro he
    subst he
    simp at hp
  · intro he
    subst he
    simp at hp

/-- A slash-free string splits into a single group. -/
theorem splitSlash_eq_single (g : List Char) (h : '/' ∉ g) : splitSlash g = [g] := by
  induction g with
  | nil => rfl
  | cons c t ih =>
    have hc : ¬ c = '/' := fun e => h (by rw [e]; exact List.mem_cons_self _ _)
    simp only [splitSlash, if_neg hc]
    rw [ih (fun ht => h (List.mem_cons_of_mem _ ht))]

/-- A well-formed segment parses back to itself. -/
theorem segsOf_single (g : List Char) (h : segWF g) : segsOf g = [g] := by
  obtain ⟨h1, h2, h3⟩ := h
  unfold segsOf
  rw [splitSlash_eq_single g h3]
  simp [List.filter_cons, h1, h2]

/-- Rendering well-formed segments and re-parsing gives them back. -/
theorem segsOf_renderSegs (L : List (List Char)) (h : ∀ g ∈ L, segWF g) :
    segsOf (renderSegs L) = L := by
  induction L with
  | nil => rfl
  | cons g t ih =>
    cases t with
    | nil => exact segsOf_single g (h g (List.mem_cons_self _ _))
    | cons u v =>
      rw [show renderSegs (g :: u :: v) = g ++ '/' :: renderSegs (u :: v) from rfl]
      rw [segsOf_append_slash]
      rw [segsOf_single g (h g (List.mem_cons_self _ _))]
      rw [ih (fun x hx => h x (List.mem_cons_of_mem _ hx))]
      rfl

/-- Rendering a non-empty well-formed segment list yields a non-empty
path not starting with a slash. -/
theorem renderSegs_ne_nil (L : List (List Char)) (hL : L ≠ [])
    (h : ∀ g ∈ L, segWF g) :
    renderSegs L ≠ [] ∧ (renderSegs L).head? ≠ some '/' := by
  cases L with
  | nil => exact absurd rfl hL
  | cons g t =>
    obtain ⟨h1, h2, h3⟩ := h g (List.mem_cons_self _ _)
    cases g with
    | nil => exact absurd rfl h1
    | cons c gc =>
      have hc : c ≠ '/' := fun e => h3 (by rw [e]; exact List.mem_cons_self _ _)
      cases t with
      | nil =>
        refine ⟨by simp [renderSegs], ?_⟩
        simp only [renderSegs, List.head?_cons, ne_eq, Option.some.injEq]
        exact hc
      | cons u v =>
        refine ⟨by simp [renderSegs], ?_⟩
        simp only [renderSegs, List.cons_append, List.head?_cons, ne_eq, Option.some.injEq]
        exact hc

/-- The `..` segment is itself well-formed. -/
theorem segWF_dd : segWF ['.', '.'] :=
  ⟨by decide, by decide, by decide⟩

/-- One resolution step preserves segment well-formedness. -/
theorem stepSeg_wf (r : Bool) (acc : List (List Char)) (g : List Char)
    (hacc : ∀ x ∈ acc, segWF x) (hg : segWF g) :
    ∀ x ∈ stepSeg r acc g, segWF x := by
  intro x hx
  unfold stepSeg at hx
  by_cases hdd : g = ['.', '.']
  · rw [if_pos hdd] at hx
    cases hl : acc.getLast? with
    | none =>
      rw [hl] at hx
      cases r with
      | true => simp at hx
      | false =>
        simp at hx
        subst hx
        exact segWF_dd
    | some l =>
      rw [hl] at hx
      have hx' : x ∈ (if l = ['.', '.'] then acc ++ [g] else acc.dropLast) := hx
      by_cases hld : l = ['.', '.']
      · rw [if_pos hld] at hx'
        rcases List.mem_append.mp hx' with h | h
        · exact hacc x h
        · have := List.mem_singleton.mp h
          subst this
          exact hg
      · rw [if_neg hld] at hx'
        exact hacc x (List.dropLast_subset _ hx')
  · rw [if_neg hdd] at hx
    rcases List.mem_append.mp hx with h | h
    · exact hacc x h
    · have := List.mem_singleton.mp h
      subst this
      exact hg

/-- Folding resolution steps preserves segment well-formedness. -/
theorem foldl_stepSeg_wf (r : Bool) (l : List (List Char)) :
    ∀ acc, (∀ x ∈ acc, segWF x) → (∀ g ∈ l, segWF g) →
    ∀ x ∈ l.foldl (stepSeg r) acc, segWF x := by
  induction l with
  | nil => intro acc hacc _ x hx; exact hacc x hx
  | cons g t ih =>
    intro acc hacc hl x hx
    rw [List.foldl_cons] at hx
    exact ih (stepSeg r acc g)
      (stepSeg_wf r acc g hacc (hl g (List.mem_cons_self _ _)))
      (fun u hu => hl u (List.mem_cons_of_mem _ hu)) x hx

/-- Resolved segments of well-formed input are well-formed. -/
theorem resolveSegs_wf (r : Bool) (l : List (List Char))
    (hl : ∀ g ∈ l, segWF g) : ∀ x ∈ resolveSegs r l, segWF x :=
  foldl_stepSeg_wf r l [] (by simp) hl

/-- One resolution step preserves the reduced shape. -/
theorem stepSeg_reduced (r : Bool) (acc : List (List Char)) (g : List Char)
    (h : reducedSegs acc) : reducedSegs (stepSeg r acc g) := by
  obtain ⟨k, m, hacc, hm⟩ := h
  subst hacc
  by_cases hdd : g = ['.', '.']
  · subst hdd
    by_cases hmn : m = []
    · subst hmn
      cases k with
      | zero =>
        cases r with
        | false => exact ⟨1, [], rfl, by simp⟩
        | true => exact ⟨0, [], rfl, by simp⟩
      | succ j =>
        have hl : (List.replicate (j+1) (['.', '.'] : List Char) ++
            ([] : List (List Char))).getLast? = some ['.', '.'] := by
          rw [List.append_nil, List.getLast?_replicate]
          simp
        have hstep : stepSeg r (List.replicate (j+1) ['.', '.'] ++ []) ['.', '.'] =
            (List.replicate (j+1) ['.', '.'] ++ []) ++ [['.', '.']] := by
          unfold stepSeg
          rw [hl]
          simp
        rw [hstep]
        refine ⟨j + 2, [], ?_, by simp⟩
        simp [List.replicate_succ']
    · cases hmg : m.getLast? with
      | none => exact absurd (List.getLast?_eq_none_iff.mp hmg) hmn
      | some lm =>
        have hlm_mem : lm ∈ m := by
          have hsp := List.dropLast_append_getLast? lm (Option.mem_def.mpr hmg)
          rw [← hsp]
          exact List.mem_append_right _ (List.mem_singleton.mpr rfl)
        have hlm : ¬ lm = ['.', '.'] := fun he => hm (he ▸ hlm_mem)
        have hl : (List.replicate k (['.', '.'] : List Char) ++ m).getLast? = some lm := by
          rw [List.getLast?_append, hmg]
          rfl
        have hstep : stepSeg r (List.replicate k ['.', '.'] ++ m) ['.', '.'] =
            (List.replicate k ['.', '.'] ++ m).dropLast := by
          unfold stepSeg
          rw [hl]
          simp [hlm]
        rw [hstep, List.dropLast_append_of_ne_nil _ hmn]
        exact ⟨k, m.dropLast, rfl, fun hc => hm (List.dropLast_subset m hc)⟩
  · have hstep : stepSeg r (List.replicate k ['.', '.'] ++ m) g =
        (List.replicate k ['.', '.'] ++ m) ++ [g] := by
      unfold stepSeg
      rw [if_neg hdd]
    rw [hstep, List.append_assoc]
    refine ⟨k, m ++ [g], rfl, ?_⟩
    intro hc
    rcases List.mem_append.mp hc with h | h
    · exact hm h
    · exact hdd (List.mem_singleton.mp h).symm

/-- Folding resolution steps preserves the reduced shape. -/
theorem foldl_stepSeg_reduced (r : Bool) (l : List (List Char)) :
    ∀ acc, reducedSegs acc → reducedSegs (l.foldl (stepSeg r) acc) := by
  induction l with
  | nil => intro acc h; exact h
  | cons g t ih =>
    intro acc h
    rw [List.foldl_cons]
    exact ih _ (stepSeg_reduced r acc g h)

/-- The resolved segment list always has the reduced shape. -/
theorem resolveSegs_reduced (r : Bool) (l : List (List Char)) :
    reducedSegs (resolveSegs r l) :=
  foldl_stepSeg_reduced r l [] ⟨0, [], rfl, by simp⟩

/-- Folding `..`-free segments just appends them. -/
theorem foldl_stepSeg_plain (r : Bool) (m : List (List Char)) :
    ∀ acc, ['.', '.'] ∉ m → m.foldl (stepSeg r) acc = acc ++ m := by
  induction m with
  | nil => intro acc _; simp
  | cons g t ih =>
    intro acc hm
    have hg : ¬ g = ['.', '.'] :=
      fun he => hm (by rw [he]; exact List.mem_cons_self _ _)
    rw [List.foldl_cons]
    rw [show stepSeg r acc g = acc ++ [g] from by unfold stepSeg; rw [if_neg hg]]
    rw [ih _ (fun hc => hm (List.mem_cons_of_mem _ hc))]
    simp

/-- Folding a run of `..` onto a pure `..` run (relative mode) stacks
them up. -/
theorem foldl_stepSeg_dds (j : Nat) :
    ∀ k, (List.replicate j (['.', '.'] : List Char)).foldl (stepSeg false)
      (List.replicate k ['.', '.']) = List.replicate (k + j) ['.', '.'] := by
  induction j with
  | zero => intro k; simp
  | succ i ih =>
    intro k
    rw [List.replicate_succ, List.foldl_cons]
    have hstep : stepSeg false (List.replicate k (['.', '.'] : List Char)) ['.', '.'] =
        List.replicate (k+1) ['.', '.'] := by
      cases k with
      | zero => rfl
      | succ n =>
        have hl : (List.replicate (n+1) (['.', '.'] : List Char)).getLast? =
            some ['.', '.'] := by
          rw [List.getLast?_replicate]
          simp
        unfold stepSeg
        rw [hl]
        simp [List.replicate_succ']
    rw [hstep, ih (k+1)]
    congr 1
    omega

/-- A reduced list is a fixpoint of relative resolution. -/
theorem resolveSegs_fix (l : List (List Char)) (h : reducedSegs l) :
    resolveSegs false l = l := by
  obtain ⟨k, m, hl, hm⟩ := h
  subst hl
  unfold resolveSegs
  rw [List.foldl_append]
  have h1 : (List.replicate k (['.', '.'] : List Char)).foldl (stepSeg false) [] =
      List.replicate k ['.', '.'] := by
    have h2 := foldl_stepSeg_dds k 0
    simpa using h2
  rw [h1, foldl_stepSeg_plain false m _ hm]

/-- Rooted resolution never keeps a `..` segment. -/
theorem foldl_stepSeg_rooted_noDD (l : List (List Char)) :
    ∀ acc, ['.', '.'] ∉ acc → ['.', '.'] ∉ l.foldl (stepSeg true) acc := by
  induction l with
  | nil => intro acc h; exact h
  | cons g t ih =>
    intro acc h
    rw [List.foldl_cons]
    refine ih _ ?_
    by_cases hg : g = ['.', '.']
    · subst hg
      cases hl : acc.getLast? with
      | none =>
        have hstep : stepSeg true acc ['.', '.'] = [] := by
          unfold stepSeg
          rw [hl]
          simp
        rw [hstep]
        simp
      | some lm =>
        have hlm : ¬ lm = ['.', '.'] := by
          intro he
          subst he
          have hsp := List.dropLast_append_getLast? _ (Option.mem_def.mpr hl)
          exact h (by rw [← hsp]; exact List.mem_append_right _ (List.mem_singleton.mpr rfl))
        have hstep : stepSeg true acc ['.', '.'] = acc.dropLast := by
          unfold stepSeg
          rw [hl]
          simp [hlm]
        rw [hstep]
        exact fun hc => h (List.dropLast_subset acc hc)
    · rw [show stepSeg true acc g = acc ++ [g] from by unfold stepSeg; rw [if_neg hg]]
      intro hc
      rcases List.mem_append.mp hc with hcc | hcc
      · exact h hcc
      · exact hg (List.mem_singleton.mp hcc).symm

/-- Rooted resolution output contains no `..` segment. -/
theorem resolveSegs_rooted_noDD (l : List (List Char)) :
    ['.', '.'] ∉ resolveSegs true l :=
  foldl_stepSeg_rooted_noDD l [] (by simp)

/-- In a reduced list containing `..`, the head is `..`. -/
theorem reduced_mem_dd_head (l : List (List Char)) (h : reducedSegs l)
    (hdd : ['.', '.'] ∈ l) : l.head? = some ['.', '.'] := by
  obtain ⟨k, m, hl, hm⟩ := h
  subst hl
  cases k with
  | zero =>
    rw [List.replicate_zero, List.nil_append] at hdd
    exact absurd hdd hm
  | succ j =>
    rw [List.replicate_succ, List.cons_append]
    rfl

/-- Splitting drops a leading slash. -/
theorem segsOf_cons_slash (x : List Char) : segsOf ('/' :: x) = segsOf x := by
  unfold segsOf
  rw [show splitSlash ('/' :: x) = [] :: splitSlash x from by simp [splitSlash]]
  rfl

/-- `cleanL` never returns the empty path. -/
theorem cleanL_ne_nil (s : List Char) : cleanL s ≠ [] := by
  unfold cleanL
  by_cases h0 : s = []
  · simp [h0]
  · rw [if_neg h0]
    by_cases hr : s.head? = some '/'
    · rw [if_pos hr]
      simp
    · rw [if_neg hr]
      show (if resolveSegs false (segsOf s) = [] then ['.']
        else renderSegs (resolveSegs false (segsOf s))) ≠ []
      by_cases hs : resolveSegs false (segsOf s) = []
      · simp [hs]
      · rw [if_neg hs]
        exact (renderSegs_ne_nil _ hs (resolveSegs_wf false (segsOf s) (segsOf_wf s))).1

/-- `cleanL` keeps a relative path relative. -/
theorem cleanL_head_unrooted (s : List Char) (h : s.head? ≠ some '/') :
    (cleanL s).head? ≠ some '/' := by
  unfold cleanL
  by_cases h0 : s = []
  · simp [h0]
  · rw [if_neg h0, if_neg h]
    show (if resolveSegs false (segsOf s) = [] then ['.']
      else renderSegs (resolveSegs false (segsOf s))).head? ≠ some '/'
    by_cases hs : resolveSegs false (segsOf s) = []
    · simp [hs]
    · rw [if_neg hs]
      exact (renderSegs_ne_nil _ hs (resolveSegs_wf false (segsOf s) (segsOf_wf s))).2

/-- `cleanL` keeps an absolute path absolute. -/
theorem cleanL_head_rooted (s : List Char) (h : s.head? = some '/') :
    (cleanL s).head? = some '/' := by
  have h0 : s ≠ [] := by
    intro he
    rw [he] at h
    simp at h
  unfold cleanL
  rw [if_neg h0, if_pos h]
  rfl

/-- Parsing the cleaned relative path gives the resolved segments. -/
theorem segsOf_cleanL_unrooted (s : List Char) (h : s.head? ≠ some '/') :
    segsOf (cleanL s) = resolveSegs false (segsOf s) := by
  unfold cleanL
  by_cases h0 : s = []
  · rw [if_pos h0]
    subst h0
    rfl
  · rw [if_neg h0, if_neg h]
    show segsOf (if resolveSegs false (segsOf s) = [] then ['.']
      else renderSegs (resolveSegs false (segsOf s))) = resolveSegs false (segsOf s)
    by_cases hs : resolveSegs false (segsOf s) = []
    · rw [if_pos hs, hs]
      rfl
    · rw [if_neg hs]
      exact segsOf_renderSegs _ (resolveSegs_wf false (segsOf s) (segsOf_wf s))

/-- Evaluation of `cleanL` on a non-empty relative path. -/
theorem cleanL_eval_unrooted (u : List Char) (hu : u ≠ []) (hr : u.head? ≠ some '/') :
    cleanL u = if resolveSegs false (segsOf u) = [] then ['.']
      else renderSegs (resolveSegs false (segsOf u)) := by
  unfold cleanL
  rw [if_neg hu, if_neg hr]

/-- `cleanL` is idempotent. -/
theorem cleanL_idem (s : List Char) : cleanL (cleanL s) = cleanL s := by
  by_cases hr : s.head? = some '/'
  · have h0 : s ≠ [] := by
      intro he
      rw [he] at hr
      simp at hr
    have hcs : cleanL s = '/' :: renderSegs (resolveSegs true (segsOf s)) := by
      unfold cleanL
      rw [if_neg h0, if_pos hr]
    have hM_wf : ∀ g ∈ resolveSegs true (segsOf s), segWF g :=
      resolveSegs_wf true (segsOf s) (segsOf_wf s)
    have hM_noDD : ['.', '.'] ∉ resolveSegs true (segsOf s) :=
      resolveSegs_rooted_noDD (segsOf s)
    rw [hcs]
    unfold cleanL
    rw [if_neg (by simp : ('/' :: renderSegs (resolveSegs true (segsOf s)) : List Char) ≠ [])]
    rw [if_pos (by rfl : ('/' :: renderSegs (resolveSegs true (segsOf s))).head? = some '/')]
    congr 1
    rw [segsOf_cons_slash, segsOf_renderSegs _ hM_wf]
    rw [show resolveSegs true (resolveSegs true (segsOf s)) =
      List.foldl (stepSeg true) [] (resolveSegs true (segsOf s)) from rfl]
    rw [foldl_stepSeg_plain true _ [] hM_noDD]
    simp
  · have hcu : (cleanL s).head? ≠ some '/' := cleanL_head_unrooted s hr
    have h1 : segsOf (cleanL s) = resolveSegs false (segsOf s) :=
      segsOf_cleanL_unrooted s hr
    have h2 : resolveSegs false (segsOf (cleanL s)) = resolveSegs false (segsOf s) := by
      rw [h1]
      exact resolveSegs_fix _ (resolveSegs_reduced false (segsOf s))
    rw [cleanL_eval_unrooted (cleanL s) (cleanL_ne_nil s) hcu, h2]
    by_cases hs : resolveSegs false (segsOf s) = []
    · rw [if_pos hs]
      by_cases h0 : s = []
      · rw [h0]
        rfl
      · rw [cleanL_eval_unrooted s h0 hr, if_pos hs]
    · rw [if_neg hs]
      have h0 : s ≠ [] := fun he => hs (by rw [he]; rfl)
      rw [cleanL_eval_unrooted s h0 hr, if_neg hs]

/-- A list is a leading part of itself followed by anything. -/
theorem hasPre_append_self (p r : List Char) : hasPre p (p ++ r) = true := by
  induction p with
  | nil => rfl
  | cons a x ih => simp [hasPre, ih]

/-- A rendering that starts with a `..` segment starts with the
characters `..`. -/
theorem hasPre_dd_render (L : List (List Char)) :
    hasPre ['.', '.'] (renderSegs (['.', '.'] :: L)) = true := by
  cases L with
  | nil => decide
  | cons u v =>
    exact hasPre_append_self ['.', '.'] ('/' :: renderSegs (u :: v))

/-- When `dropShared` consumes its whole left argument, the right
argument decomposes as the left followed by the right remainder. -/
theorem dropShared_nil_fst (a : List (List Char)) :
    ∀ b, (dropShared a b).1 = [] → b = a ++ (dropShared a b).2 := by
  induction a with
  | nil =>
    intro b _
    rfl
  | cons x xs ih =>
    intro b h
    cases b with
    | nil =>
      simp [dropShared] at h
    | cons y ys =>
      by_cases hxy : x = y
      · rw [show dropShared (x :: xs) (y :: ys) = dropShared xs ys from by
          conv_lhs => rw [dropShared]
          rw [if_pos hxy]] at h ⊢
        rw [List.cons_append, ← ih ys h, hxy]
      · rw [show dropShared (x :: xs) (y :: ys) = (x :: xs, y :: ys) from by
          conv_lhs => rw [dropShared]
          rw [if_neg hxy]] at h
        simp at h

/-- The left remainder of `dropShared` comes from the left argument. -/
theorem dropShared_fst_sub (a : List (List Char)) :
    ∀ b, (dropShared a b).1 ⊆ a := by
  induction a with
  | nil =>
    intro b x hx
    simp [dropShared] at hx
  | cons x xs ih =>
    intro b
    cases b with
    | nil => simp [dropShared]
    | cons y ys =>
      by_cases hxy : x = y
      · rw [show dropShared (x :: xs) (y :: ys) = dropShared xs ys from by
          conv_lhs => rw [dropShared]
          rw [if_pos hxy]]
        exact (ih ys).trans (List.subset_cons_self x xs)
      · rw [show dropShared (x :: xs) (y :: ys) = (x :: xs, y :: ys) from by
          conv_lhs => rw [dropShared]
          rw [if_neg hxy]]
        exact fun u hu => hu

/-- Acceptance by the traversal check keeps the target inside the base:
when the base is relative and resolves without `..` segments, a
successful `Rel` on a cleaned target whose relative path does not start
with `..` means the resolved base segments lead the target's segments,
and the target keeps no `..` segment. -/
theorem relL_inside (x z rel : List Char)
    (hx : x.head? ≠ some '/')
    (hdd : ['.', '.'] ∉ resolveSegs false (segsOf x))
    (hrel : relL x (cleanL z) = some rel)
    (hpre : hasPre ['.', '.'] rel = false) :
    (∃ t, resolveSegs false (segsOf x) ++ t = segsOf (cleanL z))
    ∧ ['.', '.'] ∉ segsOf (cleanL z) := by
  have hDwf : ∀ g ∈ resolveSegs false (segsOf x), segWF g :=
    resolveSegs_wf false (segsOf x) (segsOf_wf x)
  have hbsegs : segsOf (cleanL x) = resolveSegs false (segsOf x) :=
    segsOf_cleanL_unrooted x hx
  simp only [relL] at hrel
  rw [cleanL_idem z] at hrel
  by_cases h1 : cleanL z = cleanL x
  · rw [if_pos h1] at hrel
    refine ⟨⟨[], ?_⟩, ?_⟩
    · rw [List.append_nil, h1, hbsegs]
    · rw [h1, hbsegs]
      exact hdd
  · rw [if_neg h1] at hrel
    by_cases h2 : (((cleanL x).head? == some '/') != ((cleanL z).head? == some '/')) = true
    · rw [if_pos h2] at hrel
      exact Option.noConfusion hrel
    · rw [if_neg h2] at hrel
      have hxu : (cleanL x).head? ≠ some '/' := cleanL_head_unrooted x hx
      have hzu : (cleanL z).head? ≠ some '/' := by
        intro hc
        apply h2
        have hb1 : ((cleanL x).head? == some '/') = false := by
          simpa using hxu
        have hb2 : ((cleanL z).head? == some '/') = true := by
          simpa using hc
        rw [hb1, hb2]
        rfl
      have hzur : z.head? ≠ some '/' := fun hc => hzu (cleanL_head_rooted z hc)
      have hT : segsOf (cleanL z) = resolveSegs false (segsOf z) :=
        segsOf_cleanL_unrooted z hzur
      have hTred : reducedSegs (segsOf (cleanL z)) := by
        rw [hT]
        exact resolveSegs_reduced false (segsOf z)
      have hbs : (if cleanL x = ['.'] then [] else segsOf (cleanL x)) =
          resolveSegs false (segsOf x) := by
        by_cases hbd : cleanL x = ['.']
        · rw [if_pos hbd]
          rw [hbd] at hbsegs
          rw [← hbsegs]
          rfl
        · rw [if_neg hbd]
          exact hbsegs
      rw [hbs] at hrel
      by_cases hy : cleanL z = ['.']
      · rw [if_pos hy] at hrel
        have hTnil : segsOf (cleanL z) = [] := by
          rw [hy]
          rfl
        cases hDe : resolveSegs false (segsOf x) with
        | nil =>
          refine ⟨⟨[], ?_⟩, ?_⟩
          · rw [hTnil]
            rfl
          · rw [hTnil]
            simp
        | cons g D2 =>
          rw [hDe] at hrel hdd hDwf
          have hg_wf : segWF g := hDwf g (List.mem_cons_self _ _)
          rw [show dropShared (g :: D2) [['.']] = (g :: D2, [['.']]) from by
            conv_lhs => rw [dropShared]
            rw [if_neg hg_wf.2.1]] at hrel
          rw [if_neg (by
            simp only [List.head?_cons, ne_eq, Option.some.injEq]
            exact fun he => hdd (by rw [he]; exact List.mem_cons_self _ _))] at hrel
          injection hrel with hrel2
          have hcontra : hasPre ['.', '.'] rel = true := by
            rw [← hrel2, List.map_cons]
            exact hasPre_dd_render _
          rw [hcontra] at hpre
          exact Bool.noConfusion hpre
      · rw [if_neg hy] at hrel
        by_cases hguard :
            (dropShared (resolveSegs false (segsOf x)) (segsOf (cleanL z))).1.head? =
              some ['.', '.']
        · rw [if_pos hguard] at hrel
          exact Option.noConfusion hrel
        · rw [if_neg hguard] at hrel
          injection hrel with hrel2
          cases hfst : (dropShared (resolveSegs false (segsOf x)) (segsOf (cleanL z))).1 with
          | nil =>
            have hsplit := dropShared_nil_fst _ (segsOf (cleanL z)) hfst
            refine ⟨⟨(dropShared (resolveSegs false (segsOf x)) (segsOf (cleanL z))).2,
              hsplit.symm⟩, ?_⟩
            intro hddT
            have hhead := reduced_mem_dd_head _ hTred hddT
            cases hDe : resolveSegs false (segsOf x) with
            | nil =>
              rw [hDe, List.nil_append] at hsplit
              rw [hfst] at hrel2
              simp only [List.map_nil, List.nil_append] at hrel2
              cases hTe : segsOf (cleanL z) with
              | nil =>
                rw [hTe] at hhead
                exact Option.noConfusion hhead
              | cons t0 ts =>
                rw [hTe] at hhead hsplit
                rw [List.head?_cons] at hhead
                injection hhead with ht0
                rw [hDe, hTe] at hrel2
                rw [← hsplit] at hrel2
                rw [ht0] at hrel2
                have hcontra : hasPre ['.', '.'] rel = true := by
                  rw [← hrel2]
                  exact hasPre_dd_render _
                rw [hcontra] at hpre
                exact Bool.noConfusion hpre
            | cons g D2 =>
              rw [hDe] at hsplit
              rw [hDe] at hdd
              have hheadg : (segsOf (cleanL z)).head? = some g := by
                rw [hsplit]
                rfl
              rw [hheadg] at hhead
              injection hhead with hgdd
              exact hdd (by rw [hgdd]; exact List.mem_cons_self _ _)
          | cons q qs =>
            rw [hfst] at hrel2
            have hcontra : hasPre ['.', '.'] rel = true := by
              rw [← hrel2, List.map_cons]
              exact hasPre_dd_render _
            rw [hcontra] at hpre
            exact Bool.noConfusion hpre

/-- C1 counterexample: `a/../b.jpg` contains a parent-directory
traversal segment, yet `buildImagePath` does not reject it — the name
resolves inside the image directory, and with `images/b.jpg` present
the function returns that path with no error. -/
theorem c1_traversal_claim_cex :
    hasDotDotSeg "a/../b.jpg" = true
  ∧ buildImagePath "images" [("images/b.jpg", [1])] "a/../b.jpg" =
      ("images/b.jpg", none) := by
  refine ⟨by decide, by decide⟩

/-- C1 (amended): `buildImagePath` rejects every name whose resolution
escapes the image directory — in particular `../secret.jpg` and
`a/../../b.jpg` — and every name not ending in `.jpg`/`.jpeg`; any
non-rejected result is a path whose segments extend the resolved image
directory segments, contain no `..`, and carry an accepted suffix. -/
theorem c1_resolved_path_safety (dir : String) (files : List (String × List Nat))
    (name : String)
    (hroot : dir.data.head? ≠ some '/')
    (hdd : ['.', '.'] ∉ resolveSegs false (segsOf dir.data)) :
    buildImagePath "images" files "../secret.jpg" = ("", some ImgErr.invalidPath)
  ∧ buildImagePath "images" files "a/../../b.jpg" = ("", some ImgErr.invalidPath)
  ∧ ∀ p e, buildImagePath dir files name = (p, e) →
      (e = none ∨ e = some ImgErr.imageNotFound) →
      (∃ t, resolveSegs false (segsOf dir.data) ++ t = segsOf p.data)
      ∧ ['.', '.'] ∉ segsOf p.data
      ∧ (strEndsWith p ".jpg" = true ∨ strEndsWith p ".jpeg" = true) := by
  refine ⟨rfl, rfl, ?_⟩
  intro p e hpe hacc
  simp only [buildImagePath] at hpe
  cases hg : goRel dir (goJoin dir (goClean name)) with
  | none =>
    rw [hg] at hpe
    injection hpe with hp1 hp2
    rcases hacc with h | h
    · rw [← hp2] at h
      exact Option.noConfusion h
    · rw [← hp2] at h
      injection h with h3
      exact ImgErr.noConfusion h3
  | some rel =>
    rw [hg] at hpe
    have hpe2 : (if strStartsWith rel ".." = true then (("" : String), some ImgErr.invalidPath)
        else if (!strEndsWith (goJoin dir (goClean name)) ".jpg" &&
            !strEndsWith (goJoin dir (goClean name)) ".jpeg") = true then
          (("" : String), some ImgErr.invalidSuffix)
        else if statExists files (goJoin dir (goClean name)) = true then
          (goJoin dir (goClean name), (none : Option ImgErr))
        else (goJoin dir (goClean name), some ImgErr.imageNotFound)) = (p, e) := hpe
    by_cases hs : strStartsWith rel ".." = true
    · rw [if_pos hs] at hpe2
      injection hpe2 with hp1 hp2
      rcases hacc with h | h
      · rw [← hp2] at h
        exact Option.noConfusion h
      · rw [← hp2] at h
        injection h with h3
        exact ImgErr.noConfusion h3
    · rw [if_neg hs] at hpe2
      by_cases hsuf : (!strEndsWith (goJoin dir (goClean name)) ".jpg" &&
          !strEndsWith (goJoin dir (goClean name)) ".jpeg") = true
      · rw [if_pos hsuf] at hpe2
        injection hpe2 with hp1 hp2
        rcases hacc with h | h
        · rw [← hp2] at h
          exact Option.noConfusion h
        · rw [← hp2] at h
          injection h with h3
          exact ImgErr.noConfusion h3
      · rw [if_neg hsuf] at hpe2
        have hp : p = goJoin dir (goClean name) := by
          by_cases hex : statExists files (goJoin dir (goClean name)) = true
          · rw [if_pos hex] at hpe2
            injection hpe2 with h1 _
            exact h1.symm
          · rw [if_neg hex] at hpe2
            injection hpe2 with h1 _
            exact h1.symm
        subst hp
        have hsufok : strEndsWith (goJoin dir (goClean name)) ".jpg" = true ∨
            strEndsWith (goJoin dir (goClean name)) ".jpeg" = true := by
          by_cases hj : strEndsWith (goJoin dir (goClean name)) ".jpg" = true
          · exact Or.inl hj
          · by_cases hj2 : strEndsWith (goJoin dir (goClean name)) ".jpeg" = true
            · exact Or.inr hj2
            · simp only [Bool.not_eq_true] at hj hj2
              exact absurd (by rw [hj, hj2]; rfl) hsuf
        have hrelL : relL dir.data (goJoin dir (goClean name)).data = some rel.data := by
          unfold goRel at hg
          cases hr0 : relL dir.data (goJoin dir (goClean name)).data with
          | none =>
            rw [hr0] at hg
            exact Option.noConfusion hg
          | some l =>
            rw [hr0] at hg
            simp only [Option.map_some'] at hg
            injection hg with hg2
            rw [← hg2]
        have hz : ∃ zz, (goJoin dir (goClean name)).data = cleanL zz := by
          by_cases hd0 : dir.data = []
          · refine ⟨cleanL name.data, ?_⟩
            show joinL dir.data (cleanL name.data) = cleanL (cleanL name.data)
            unfold joinL
            rw [if_pos hd0, if_neg (cleanL_ne_nil name.data)]
          · refine ⟨dir.data ++ '/' :: cleanL name.data, ?_⟩
            show joinL dir.data (cleanL name.data) =
              cleanL (dir.data ++ '/' :: cleanL name.data)
            unfold joinL
            rw [if_neg hd0]
        obtain ⟨zz, hzz⟩ := hz
        rw [hzz] at hrelL
        have hpre2 : hasPre ['.', '.'] rel.data = false := by
          have h5 : strStartsWith rel ".." = false := by
            simpa using hs
          exact h5
        have hmain := relL_inside dir.data zz rel.data hroot hdd hrelL hpre2
        refine ⟨?_, ?_, hsufok⟩
        · obtain ⟨t, ht⟩ := hmain.1
          refine ⟨t, ?_⟩
          rw [show (goJoin dir (goClean name)).data = cleanL zz from hzz]
          exact ht
        · rw [show (goJoin dir (goClean name)).data = cleanL zz from hzz]
          exact hmain.2

/-- C1 witness: a concrete instance of `c1_resolved_path_safety` at the
directory `"images"` and the name `"x.jpg"`. -/
theorem c1_resolved_path_safety_witness :
    buildImagePath "images" [] "../secret.jpg" = ("", some ImgErr.invalidPath)
  ∧ (∃ t, resolveSegs false (segsOf "images".data) ++ t =
      segsOf ("images/x.jpg" : String).data) := by
  have h := c1_resolved_path_safety "images" [] "x.jpg" (by decide) (by decide)
  refine ⟨h.1, ?_⟩
  have h3 := h.2.2 "images/x.jpg" (some ImgErr.imageNotFound) (by decide)
    (Or.inr rfl)
  exact h3.1
